import Mathlib

/-!
Verification of the spackbot worker layer (`spackbot/workers.py` and the
helpers it uses).  Python strings are embedded as `List Char`; the
three-valued Python result of `hash_from_key` (`None` / `[]` / a string) is kept as
a three-constructor inductive because the difference is observable downstream
(`None in set` is `False`, while `[] in set` raises `TypeError`).
-/

namespace Spackbot

/-- ASCII alphanumeric test, the character class `[a-zA-Z0-9]` of the regex
in `hash_from_key` (`Char.isAlpha`/`Char.isDigit` are exactly the ASCII
ranges). -/
def isAlnumA (c : Char) : Bool :=
  c.isAlpha || c.isDigit

/-- Predicate `hashCand r` holds when `r` starts with exactly 32 ASCII alphanumeric
characters followed by a literal dot: the part of the regex
`-([a-zA-Z0-9]{32,32})\.` that comes after the dash. -/
def hashCand (r : List Char) : Bool :=
  decide ((r.take 32).length = 32) && (r.take 32).all isAlnumA
    && ((r.drop 32).headI == '.')

/-- Fuel-indexed regex scan; the fuel only serves structural recursion and
is irrelevant as long as it dominates the list length (proved below). -/
def findHashAux : Nat → List Char → List (List Char)
  | 0, _ => []
  | _ + 1, [] => []
  | fuel + 1, c :: rest =>
    if (c == '-') && hashCand rest then
      rest.take 32 :: findHashAux fuel (rest.drop 33)
    else
      findHashAux fuel rest

/-- Embedding of `re.findall(r"-([a-zA-Z0-9]{32,32})\.", s)`: scan left to right; on a
match, capture the 32 characters and resume after the consumed dot. -/
def findHashMatches (l : List Char) : List (List Char) :=
  findHashAux l.length l

/-- The value returned by the Python `hash_from_key`: `pyNone` is Python `None`
(two or more regex matches), `pyEmpty` is the empty list (zero matches,
returned unchanged by the trailing `return h`), `pyStr h` is the single
captured hash. -/
inductive HashRes where
  | pyNone
  | pyEmpty
  | pyStr (h : List Char)
deriving DecidableEq, Repr

/-- Embedding of `workers.hash_from_key`: run the regex over `key.lower()`; more than one
match is ambiguous (`None`), exactly one match yields the captured token,
zero matches fall through and return the empty `findall` result. -/
def hash_from_key (key : List Char) : HashRes :=
  match findHashMatches (key.map Char.toLower) with
  | [] => .pyEmpty
  | [t] => .pyStr t
  | _ => .pyNone

/-- Truthiness of a `hash_from_key` result (`if spec_hash:` in Python):
only an actual string is truthy. -/
def HashRes.isTruthy : HashRes → Bool
  | .pyStr _ => true
  | _ => false

structure PObj where
  key : List Char
  lastModified : Int
deriving DecidableEq, Repr

/-- The spec-file extensions of the first two loops of the prune task. -/
def specExtsL : List (List Char) :=
  [".spec.json".data, ".spec.yaml".data, ".spec.json.sig".data]

/-- Embedding of `(".spack", *extensions)`: the extended tuple of the final prune loop. -/
def allExtsL : List (List Char) :=
  ".spack".data :: specExtsL

/-- Python `key.endswith(extensions)` with a tuple argument. -/
def endsWithAny (k : List Char) (exts : List (List Char)) : Bool :=
  exts.any (fun e => e.isSuffixOf k)

/-- Embedding of `(now - obj.last_modified).days >= retire_days`; `timedelta.days` is the
floor of the difference in days, hence `Int.fdiv`. -/
def agedOut (now retireDays : Int) (o : PObj) : Bool :=
  retireDays ≤ (now - o.lastModified).fdiv 86400

structure P1Out where
  kept : List PObj
  deletedKeys : List (List Char)
  deleteSpecs : List (List Char)
  sharedSpecs : List (List Char)
deriving DecidableEq, Repr

/-- First loop over the shared mirror: every object past the retirement age
is deleted outright and its hash (when extractable) recorded in
`delete_specs`; among the remaining objects, those with a spec-file extension
contribute their hash to `shared_pr_specs`. -/
def pass1 (now retireDays : Int) : List PObj → P1Out
  | [] => ⟨[], [], [], []⟩
  | o :: rest =>
    let r := pass1 now retireDays rest
    if agedOut now retireDays o then
      ⟨r.kept, o.key :: r.deletedKeys,
        (match hash_from_key o.key with
          | .pyStr h => h :: r.deleteSpecs
          | _ => r.deleteSpecs),
        r.sharedSpecs⟩
    else if endsWithAny o.key specExtsL then
      ⟨o :: r.kept, r.deletedKeys, r.deleteSpecs,
        (match hash_from_key o.key with
          | .pyStr h => h :: r.sharedSpecs
          | _ => r.sharedSpecs)⟩
    else
      ⟨o :: r.kept, r.deletedKeys, r.deleteSpecs, r.sharedSpecs⟩

/-- Second loop, over the publish mirror: spec-file objects whose hash also
occurs in `shared_pr_specs` mark that hash as a duplicate.  A zero-match
hash is the Python list `[]`, and `[] in shared_pr_specs` raises
`TypeError`: `none` models that crash.  (`None in shared_pr_specs` is merely
`False`.) -/
def pass2 : List PObj → List (List Char) → Option (List (List Char))
  | [], _ => some []
  | o :: rest, specs =>
    if endsWithAny o.key specExtsL then
      match hash_from_key (o.key.map Char.toLower) with
      | .pyEmpty => none
      | .pyNone => pass2 rest specs
      | .pyStr h =>
        if h ∈ specs then (pass2 rest specs).map (fun d => h :: d)
        else pass2 rest specs
    else pass2 rest specs

structure P3Out where
  kept : List PObj
  deleted : List (List Char)
  crashed : Bool
deriving DecidableEq, Repr

/-- Final loop over the (re-listed) shared mirror: delete every object with
an extended extension whose hash is in `delete_specs`.  A zero-match hash
again raises `TypeError` (`crashed`), leaving the current and all later
objects untouched. -/
def pass3 (specs : List (List Char)) : List PObj → P3Out
  | [] => ⟨[], [], false⟩
  | o :: rest =>
    if endsWithAny o.key allExtsL then
      match hash_from_key o.key with
      | .pyEmpty => ⟨o :: rest, [], true⟩
      | .pyNone =>
        let r := pass3 specs rest
        ⟨o :: r.kept, r.deleted, r.crashed⟩
      | .pyStr h =>
        if h ∈ specs then
          let r := pass3 specs rest
          ⟨r.kept, o.key :: r.deleted, r.crashed⟩
        else
          let r := pass3 specs rest
          ⟨o :: r.kept, r.deleted, r.crashed⟩
    else
      let r := pass3 specs rest
      ⟨o :: r.kept, r.deleted, r.crashed⟩

structure StackOut where
  shared : List PObj
  deleted : List (List Char)
  crashed : Bool
deriving DecidableEq, Repr

/-- The body of `prune_mirror_duplicates` for one CI stack: the age pass over
the shared mirror, the duplicate scan of the publish mirror, then the cascade
deletion over the re-listed shared mirror.  A `TypeError` crash (`crashed`)
aborts the remainder of the task. -/
def pruneStack (now retireDays : Int) (shared pub : List PObj) : StackOut :=
  let p1 := pass1 now retireDays shared
  match pass2 pub p1.sharedSpecs with
  | none => ⟨p1.kept, p1.deletedKeys, true⟩
  | some dup =>
    let p3 := pass3 (p1.deleteSpecs ++ dup) p1.kept
    ⟨p3.kept, p1.deletedKeys ++ p3.deleted, p3.crashed⟩

/-- One stack of the prune loop: its shared-mirror listing paired with its
publish-mirror listing (the per-stack URLs have disjoint prefixes). -/
structure StacksOut where
  mirrors : List (List PObj × List PObj)
  deleted : List (List Char)
  crashed : Bool
deriving DecidableEq, Repr

/-- The `for stack in list_ci_stacks(...)` loop of `prune_mirror_duplicates`:
stacks are pruned in order, and a crash propagates out of the task, leaving
later stacks untouched.  The publish mirrors are never written. -/
def runStacks (now retireDays : Int) :
    List (List PObj × List PObj) → StacksOut
  | [] => ⟨[], [], false⟩
  | (sh, pub) :: rest =>
    let r := pruneStack now retireDays sh pub
    if r.crashed then ⟨(r.shared, pub) :: rest, r.deleted, true⟩
    else
      let t := runStacks now retireDays rest
      ⟨(r.shared, pub) :: t.mirrors, r.deleted ++ t.deleted, t.crashed⟩

/-!
## Job dedup guard (`workers.check_skip_job`) and task entry points
-/

/-- An RQ job as the guard sees it: only the `"type"` entry of `job.meta`
matters, absent entries are `none`. -/
structure Job where
  metaType : Option String
deriving DecidableEq, Repr

/-- Embedding of `workers.check_skip_job`: the type of the running job is read with
`job.meta.get("type", "-")`; each still-pending job of the origin queue is
read with `_job.meta["type"]`, which raises `KeyError` when the entry is
absent (modelled `none`); the loop stops at the first pending job of equal
type. -/
def check_skip_job (cur : Job) : List Job → Option Bool
  | [] => some false
  | j :: rest =>
    match j.metaType with
    | none => none
    | some t =>
      if t == cur.metaType.getD "-" then some true
      else check_skip_job cur rest

/-- Embedding of `workers.prune_mirror_duplicates` including its dedup guard: a pending
job of the same type on the origin queue makes the task return before
touching storage; a `KeyError` in the guard likewise aborts it (`crashed`);
otherwise the stack loop `runStacks` runs. -/
def prune_mirror_duplicates (cur : Job) (pending : List Job)
    (now retireDays : Int)
    (sts : List (List PObj × List PObj)) : StacksOut :=
  match check_skip_job cur pending with
  | none => ⟨sts, [], true⟩
  | some true => ⟨sts, [], false⟩
  | some false => runStacks now retireDays sts

/-- Embedding of `workers.update_mirror_index` reduced to its observable effect: the list
of stack mirror URLs against which `spack buildcache update-index` is run.
The same dedup guard makes it run nothing when a same-type job is pending. -/
def update_mirror_index (cur : Job) (pending : List Job)
    (stackUrls : List String) : List String :=
  match check_skip_job cur pending with
  | some false => stackUrls
  | _ => []

/-!
## The pipeline task (`workers.run_pipeline_task`)

The task is embedded as a function of the event payload plus the responses
of its collaborators (GitHub lookups, the GitLab commit query), recording the
comments it posts, the CI ref it queries and triggers, and whether it wiped
the PR mirror.
-/

/-- UTF-8 bytes of one scalar value; Python encodes the string as UTF-8
before percent-quoting. -/
def utf8Bytes (c : Char) : List Nat :=
  let n := c.toNat
  if n < 128 then [n]
  else if n < 2048 then [192 + n / 64, 128 + n % 64]
  else if n < 65536 then [224 + n / 4096, 128 + (n / 64) % 64, 128 + n % 64]
  else [240 + n / 262144, 128 + (n / 4096) % 64, 128 + (n / 64) % 64,
    128 + n % 64]

/-- The characters `urllib.parse.quote` never encodes (`_ALWAYS_SAFE`);
`quote_plus` here is always called with an empty `safe` argument, the default. -/
def quoteSafe (c : Char) : Bool :=
  c.isAlpha || c.isDigit || c == '_' || c == '.' || c == '-' || c == '~'

def hexDigitU (n : Nat) : Char :=
  if n < 10 then Char.ofNat (48 + n) else Char.ofNat (55 + n)

/-- Embedding of `urllib.parse.quote_plus`: a space becomes `+`, every other character
outside the always-safe set becomes `%XX` (uppercase hex) per UTF-8 byte. -/
def quote_plus (s : List Char) : List Char :=
  s.flatMap (fun c =>
    if quoteSafe c then [c]
    else if c == ' ' then ['+']
    else (utf8Bytes c).flatMap
      (fun b => ['%', hexDigitU (b / 16), hexDigitU (b % 16)]))

/-- Modelled from the spec: the body of `comments.cannot_run_pipeline_comment`
is referenced by `workers.check_gitlab_has_latest` but missing from the
repository snapshot; the spec describes it as the "cannot run pipeline"
message. -/
def cannot_run_pipeline_comment : String :=
  "I cannot run the pipeline: GitLab does not yet have the latest revision of this branch."

/-- Modelled from the spec: `comments.format_generic_details_msg` is missing
from the snapshot; it wraps the message together with a details section. -/
def format_generic_details_msg (msg details : String) : String :=
  msg ++ "\n<details>\n" ++ details ++ "\n</details>"

def spack_gitlab_url : String := "https://gitlab.spack.io"

/-- Embedding of `workers.check_gitlab_has_latest`, abstracted over the GitLab commit
response: `none` stands for a falsy response or one without a `parent_ids`
key, `some ps` for a response carrying the parent-id list `ps`.  Returns the
boolean outcome together with the comments posted (the detail strings of the
source are f-strings over the raw response, summarised here). -/
def check_gitlab_has_latest (parents : Option (List String))
    (headSha : String) : Bool × List String :=
  match parents with
  | none =>
    (false, [format_generic_details_msg cannot_run_pipeline_comment
      "Unexpected response from gitlab"])
  | some ps =>
    if headSha ∈ ps then (true, [])
    else (false, [format_generic_details_msg cannot_run_pipeline_comment
      "pr head is not among the gitlab commit parents"])

structure PipeEvent where
  sender : String
  author : String
  prNumber : List Char
  prBranch : List Char
  headSha : String
  collaboratorFound : Bool
  gitlabParents : Option (List String)
  rebuildEverything : Bool
  hasToken : Bool
  detailsPath : Option String
deriving DecidableEq, Repr

structure PipeOut where
  posted : List String
  queriedRef : Option (List Char)
  triggered : Bool
  triggerRef : Option (List Char)
  mirrorDeleted : Bool
deriving DecidableEq, Repr

/-- The comment posted after the trigger request: a pipeline link when the
response carries `detailed_status.details_path`, a generic failure note
otherwise. -/
def pipelineResultMsg : Option String → String
  | some p => "I\x27ve started that [pipeline](" ++ spack_gitlab_url ++ p
      ++ ") for you!"
  | none => "I had a problem triggering the pipeline."

def permDeniedMsg (sender : String) : String :=
  "Sorry " ++ sender
    ++ ", I cannot do that for you. Only users with write can make this request!"

def noAuthMsg : String :=
  "I\x27m not able to run the pipeline now because I don\x27t have authentication."

/-- The authorized tail of `run_pipeline_task`: compute the CI ref
`quote_plus("pr{number}_{branch}")`, query GitLab for freshness, and if the
check passes optionally wipe the PR mirror (`rebuild_everything`) and trigger
the pipeline. -/
def run_pipeline_authorized (ev : PipeEvent) : PipeOut :=
  let ref := quote_plus ("pr".data ++ ev.prNumber ++ "_".data ++ ev.prBranch)
  let chk := check_gitlab_has_latest ev.gitlabParents ev.headSha
  if chk.1 then
    ⟨[pipelineResultMsg ev.detailsPath], some ref, true, some ref,
      ev.rebuildEverything⟩
  else
    ⟨chk.2, some ref, false, none, false⟩

/-- Embedding of `workers.run_pipeline_task`: missing token, then authorization (author or
collaborator lookup), then the authorized tail. -/
def run_pipeline_task (ev : PipeEvent) : PipeOut :=
  if !ev.hasToken then ⟨[noAuthMsg], none, false, none, false⟩
  else if ev.author == ev.sender || ev.collaboratorFound then
    run_pipeline_authorized ev
  else ⟨[permDeniedMsg ev.sender], none, false, none, false⟩

/-!
## The style-fix task (`workers.fix_style_task`)
-/

/-- Behaviour of the Python `needle in hay` test on strings: some suffix of `hay` starts with
`needle`. -/
def strContainsSub (hay needle : List Char) : Bool :=
  (List.range (hay.length + 1)).any (fun i => needle.isPrefixOf (hay.drop i))

/-- Embedding of `workers.is_up_to_date`: a commit "fails" harmlessly when its output
reports there was nothing to commit. -/
def is_up_to_date (output : List Char) : Bool :=
  strContainsSub output "nothing to commit".data

/-- Embedding of `comments.get_style_message` (the version `workers.fix_style_task`
imports): the formatter output is truncated to the GitHub comment limit and
wrapped in the fixed template. -/
def get_style_message (output : List Char) : List Char :=
  let out2 :=
    if 64700 ≤ output.length then
      output.take 64682 ++ "\n... truncated ...".data
    else output
  ("\nI was able to run `spack style --fix` for you!\n<details>\n<summary><b>spack style --fix</b></summary>\n\n```bash\n").data
    ++ out2
    ++ ("\n```\n</details>\nKeep in mind that I cannot fix your flake8 or mypy errors, so if you have any you\x27ll need to fix them and update the pull request.\nIf I was able to push to your branch, if you make further changes you will need to pull from your updated branch before pushing again.\n").data

def styleAckMsg : List Char :=
  "Let me see if I can fix that for you!".data

def stylePermDeniedMsg (sender author : String) : List Char :=
  ("Sorry " ++ sender ++ ", I cannot do that for you. Only " ++ author
    ++ " and users with write can make this request!").data

/-- The text appended when the commit reported nothing to commit. -/
def noFurtherChangesMsg : List Char :=
  "\nI wasn\x27t able to make any further changes, but please see the message above for remaining issues you can fix locally!".data

def branchUpdatedMsg : List Char :=
  "\n\nI\x27ve updated the branch with style fixes.".data

def pushRejectedMsg : List Char :=
  ("\n\nBut it looks like I\x27m not able to push to your branch. 😭️ Did you check [Allow edits from maintainers](https://docs.github.com/en/pull-requests/collaborating-with-pull-requests/working-with-forks/allowing-changes-to-a-pull-request-branch-created-from-a-fork#enabling-repository-maintainer-permissions-on-existing-pull-requests) when you opened the PR?").data

structure StyleEvent where
  sender : String
  author : String
  collaboratorFound : Bool
  styleOutput : List Char
  commitOutput : List Char
  pushOk : Bool
deriving DecidableEq, Repr

structure StyleOut where
  posted : List (List Char)
  pushedToBranch : Bool
deriving DecidableEq, Repr

/-- Embedding of `workers.fix_style_task` as a function of the event and the observed
git/formatter outputs: authorization, the acknowledgement comment, the
formatter run, the commit attempt, then either the terminal
"no further changes" comment (no push) or the push with its two outcomes. -/
def fix_style_task (ev : StyleEvent) : StyleOut :=
  if ev.sender != ev.author && !ev.collaboratorFound then
    ⟨[stylePermDeniedMsg ev.sender ev.author], false⟩
  else
    let msg := get_style_message ev.styleOutput
    if is_up_to_date ev.commitOutput then
      ⟨[styleAckMsg, msg ++ noFurtherChangesMsg], false⟩
    else if ev.pushOk then
      ⟨[styleAckMsg, msg ++ branchUpdatedMsg], true⟩
    else
      ⟨[styleAckMsg, msg ++ branchUpdatedMsg ++ pushRejectedMsg], false⟩

/-!
## Object storage and the copy task (`workers.copy_pr_mirror`)

A store is a list of (bucket, key, value) objects; its order carries the S3
listing order of the initial state.  `copy_pr_mirror` iterates over a
snapshot listing taken at call time, while each server-side copy reads the
source value at copy time.
-/

structure SObj where
  bucket : List Char
  key : List Char
  val : Nat
deriving DecidableEq, Repr

/-- Embedding of `bucket.objects.filter(Prefix=pfx)`: the objects of the bucket whose key
starts with the prefix string, in listing order. -/
def listObjs (store : List SObj) (bkt pfx : List Char) : List SObj :=
  store.filter (fun o => o.bucket == bkt && pfx.isPrefixOf o.key)

/-- The value stored under a bucket and key. -/
def getVal : List SObj → List Char → List Char → Option Nat
  | [], _, _ => none
  | o :: rest, b, k =>
    if o.bucket == b && o.key == k then some o.val else getVal rest b k

/-- Writing an object: S3 put/copy overwrites any object under the same
key. -/
def putObj (bkt k : List Char) (v : Nat) : List SObj → List SObj
  | [] => [⟨bkt, k, v⟩]
  | o :: rest =>
    if o.bucket == bkt && o.key == k then putObj bkt k v rest
    else o :: putObj bkt k v rest

/-- Python `s.replace(old, new, 1)`: substitute the first occurrence of
`old` (matching the empty string at the front when `old` is empty). -/
def replaceFirst (old new : List Char) : List Char → List Char
  | [] => if old.isPrefixOf ([] : List Char) then new else []
  | c :: rest =>
    if old.isPrefixOf (c :: rest) then new ++ (c :: rest).drop old.length
    else c :: replaceFirst old new rest

/-- The build-artifact extensions `copy_pr_mirror` copies. -/
def copyExtsL : List (List Char) :=
  [".spack".data, ".spec.json".data, ".spec.yaml".data, ".spec.json.sig".data]

/-- One iteration of the copy loop: an object with a build-artifact
extension is copied into the shared bucket under its prefix-substituted key,
with the value the source key holds at copy time. -/
def copyStep (prBkt prPfx shBkt shPfx : List Char)
    (st : List SObj) (o : SObj) : List SObj :=
  if endsWithAny o.key copyExtsL then
    match getVal st prBkt o.key with
    | some v => putObj shBkt (replaceFirst prPfx shPfx o.key) v st
    | none => st
  else st

/-- Embedding of `workers.copy_pr_mirror` over the snapshot listing of the PR mirror. -/
def copy_pr_mirror (prBkt prPfx shBkt shPfx : List Char)
    (store : List SObj) : List SObj :=
  (listObjs store prBkt prPfx).foldl (copyStep prBkt prPfx shBkt shPfx) store

/-!
## `helpers.s3_parse_url` (via `urllib.parse.urlparse`) and the delete task
-/

theorem pass1_kept_notAged (now rd : Int) (l : List PObj) (o : PObj)
    (h : o ∈ (pass1 now rd l).kept) : agedOut now rd o = false := by
  induction l with
  | nil => simp [pass1] at h
  | cons a rest ih =>
    rw [pass1] at h
    by_cases ha : agedOut now rd a = true
    · rw [if_pos ha] at h
      exact ih h
    · rw [if_neg ha] at h
      by_cases he : endsWithAny a.key specExtsL = true
      · rw [if_pos he] at h
        rcases List.mem_cons.mp h with h1 | h1
        · subst h1
          exact Bool.not_eq_true _ ▸ ha
        · exact ih h1
      · rw [if_neg he] at h
        rcases List.mem_cons.mp h with h1 | h1
        · subst h1
          exact Bool.not_eq_true _ ▸ ha
        · exact ih h1

theorem pass1_of_notAged (now rd : Int) (l : List PObj)
    (h : ∀ o ∈ l, agedOut now rd o = false) :
    (pass1 now rd l).kept = l ∧ (pass1 now rd l).deletedKeys = []
      ∧ (pass1 now rd l).deleteSpecs = [] := by
  induction l with
  | nil => exact ⟨rfl, rfl, rfl⟩
  | cons a rest ih =>
    have ha : agedOut now rd a = false := h a (List.mem_cons_self a rest)
    have hrest := ih (fun o ho => h o (List.mem_cons_of_mem a ho))
    rw [pass1, if_neg (by rw [ha]; exact fun hh => nomatch hh)]
    by_cases he : endsWithAny a.key specExtsL = true
    · rw [if_pos he]
      exact ⟨by rw [hrest.1], hrest.2.1, hrest.2.2⟩
    · rw [if_neg he]
      exact ⟨by rw [hrest.1], hrest.2.1, hrest.2.2⟩

theorem pass1_sharedSpecs_complete (now rd : Int) (l : List PObj) (o : PObj)
    (t : List Char) (hk : o ∈ (pass1 now rd l).kept)
    (he : endsWithAny o.key specExtsL = true)
    (hh : hash_from_key o.key = HashRes.pyStr t) :
    t ∈ (pass1 now rd l).sharedSpecs := by
  induction l with
  | nil => simp [pass1] at hk
  | cons a rest ih =>
    rw [pass1] at hk ⊢
    by_cases ha : agedOut now rd a = true
    · rw [if_pos ha] at hk ⊢
      exact ih hk
    · rw [if_neg ha] at hk ⊢
      by_cases hae : endsWithAny a.key specExtsL = true
      · rw [if_pos hae] at hk ⊢
        rcases List.mem_cons.mp hk with h1 | h1
        · subst h1
          rw [hh]
          exact List.mem_cons_self t _
        · cases hha : hash_from_key a.key with
          | pyStr u => exact List.mem_cons_of_mem u (ih h1)
          | pyNone => exact ih h1
          | pyEmpty => exact ih h1
      · rw [if_neg hae] at hk ⊢
        rcases List.mem_cons.mp hk with h1 | h1
        · subst h1
          exact absurd he hae
        · exact ih h1

theorem pass1_sharedSpecs_src (now rd : Int) (l : List PObj) (t : List Char)
    (ht : t ∈ (pass1 now rd l).sharedSpecs) :
    ∃ o ∈ (pass1 now rd l).kept, endsWithAny o.key specExtsL = true
      ∧ hash_from_key o.key = HashRes.pyStr t := by
  induction l with
  | nil => simp [pass1] at ht
  | cons a rest ih =>
    rw [pass1] at ht ⊢
    by_cases ha : agedOut now rd a = true
    · rw [if_pos ha] at ht ⊢
      exact ih ht
    · rw [if_neg ha] at ht ⊢
      by_cases hae : endsWithAny a.key specExtsL = true
      · rw [if_pos hae] at ht ⊢
        cases hha : hash_from_key a.key with
        | pyStr u =>
          rw [hha] at ht
          rcases List.mem_cons.mp ht with h1 | h1
          · subst h1
            exact ⟨a, List.mem_cons_self a _, hae, hha⟩
          · obtain ⟨o, ho, hoe, hoh⟩ := ih h1
            exact ⟨o, List.mem_cons_of_mem a ho, hoe, hoh⟩
        | pyNone =>
          rw [hha] at ht
          obtain ⟨o, ho, hoe, hoh⟩ := ih ht
          exact ⟨o, List.mem_cons_of_mem a ho, hoe, hoh⟩
        | pyEmpty =>
          rw [hha] at ht
          obtain ⟨o, ho, hoe, hoh⟩ := ih ht
          exact ⟨o, List.mem_cons_of_mem a ho, hoe, hoh⟩
      · rw [if_neg hae] at ht ⊢
        obtain ⟨o, ho, hoe, hoh⟩ := ih ht
        exact ⟨o, List.mem_cons_of_mem a ho, hoe, hoh⟩

theorem pass2_cons_noext (s : List (List Char)) (a : PObj) (rest : List PObj)
    (he : endsWithAny a.key specExtsL = false) :
    pass2 (a :: rest) s = pass2 rest s := by
  rw [pass2, if_neg (by simp [he])]

theorem pass2_cons_pyEmpty (s : List (List Char)) (a : PObj) (rest : List PObj)
    (he : endsWithAny a.key specExtsL = true)
    (hha : hash_from_key (a.key.map Char.toLower) = HashRes.pyEmpty) :
    pass2 (a :: rest) s = none := by
  rw [pass2, if_pos he, hha]

theorem pass2_cons_pyNone (s : List (List Char)) (a : PObj) (rest : List PObj)
    (he : endsWithAny a.key specExtsL = true)
    (hha : hash_from_key (a.key.map Char.toLower) = HashRes.pyNone) :
    pass2 (a :: rest) s = pass2 rest s := by
  rw [pass2, if_pos he, hha]

theorem pass2_cons_pyStr_mem (s : List (List Char)) (a : PObj)
    (rest : List PObj) (t : List Char)
    (he : endsWithAny a.key specExtsL = true)
    (hha : hash_from_key (a.key.map Char.toLower) = HashRes.pyStr t)
    (hm : t ∈ s) :
    pass2 (a :: rest) s = (pass2 rest s).map (fun d => t :: d) := by
  rw [pass2, if_pos he, hha]
  simp [hm]

theorem pass2_cons_pyStr_notmem (s : List (List Char)) (a : PObj)
    (rest : List PObj) (t : List Char)
    (he : endsWithAny a.key specExtsL = true)
    (hha : hash_from_key (a.key.map Char.toLower) = HashRes.pyStr t)
    (hm : t ∉ s) :
    pass2 (a :: rest) s = pass2 rest s := by
  rw [pass2, if_pos he, hha]
  simp [hm]

theorem pass3_cons_noext (specs : List (List Char)) (a : PObj)
    (rest : List PObj) (he : endsWithAny a.key allExtsL = false) :
    pass3 specs (a :: rest)
      = ⟨a :: (pass3 specs rest).kept, (pass3 specs rest).deleted,
          (pass3 specs rest).crashed⟩ := by
  rw [pass3, if_neg (by simp [he])]

theorem pass3_cons_pyEmpty (specs : List (List Char)) (a : PObj)
    (rest : List PObj) (he : endsWithAny a.key allExtsL = true)
    (hha : hash_from_key a.key = HashRes.pyEmpty) :
    pass3 specs (a :: rest) = ⟨a :: rest, [], true⟩ := by
  rw [pass3, if_pos he, hha]

theorem pass3_cons_pyNone (specs : List (List Char)) (a : PObj)
    (rest : List PObj) (he : endsWithAny a.key allExtsL = true)
    (hha : hash_from_key a.key = HashRes.pyNone) :
    pass3 specs (a :: rest)
      = ⟨a :: (pass3 specs rest).kept, (pass3 specs rest).deleted,
          (pass3 specs rest).crashed⟩ := by
  rw [pass3, if_pos he, hha]

theorem pass3_cons_pyStr_mem (specs : List (List Char)) (a : PObj)
    (rest : List PObj) (t : List Char)
    (he : endsWithAny a.key allExtsL = true)
    (hha : hash_from_key a.key = HashRes.pyStr t) (hm : t ∈ specs) :
    pass3 specs (a :: rest)
      = ⟨(pass3 specs rest).kept, a.key :: (pass3 specs rest).deleted,
          (pass3 specs rest).crashed⟩ := by
  rw [pass3, if_pos he, hha]
  simp [hm]

theorem pass3_cons_pyStr_notmem (specs : List (List Char)) (a : PObj)
    (rest : List PObj) (t : List Char)
    (he : endsWithAny a.key allExtsL = true)
    (hha : hash_from_key a.key = HashRes.pyStr t) (hm : t ∉ specs) :
    pass3 specs (a :: rest)
      = ⟨a :: (pass3 specs rest).kept, (pass3 specs rest).deleted,
          (pass3 specs rest).crashed⟩ := by
  rw [pass3, if_pos he, hha]
  simp [hm]

theorem pass3_kept_sub (specs : List (List Char)) (l : List PObj) (o : PObj)
    (h : o ∈ (pass3 specs l).kept) : o ∈ l := by
  induction l with
  | nil => simp [pass3] at h
  | cons a rest ih =>
    cases he : endsWithAny a.key allExtsL with
    | false =>
      rw [pass3_cons_noext specs a rest he] at h
      rcases List.mem_cons.mp h with h1 | h1
      · exact h1 ▸ List.mem_cons_self a rest
      · exact List.mem_cons_of_mem a (ih h1)
    | true =>
      cases hha : hash_from_key a.key with
      | pyEmpty =>
        rw [pass3_cons_pyEmpty specs a rest he hha] at h
        exact h
      | pyNone =>
        rw [pass3_cons_pyNone specs a rest he hha] at h
        rcases List.mem_cons.mp h with h1 | h1
        · exact h1 ▸ List.mem_cons_self a rest
        · exact List.mem_cons_of_mem a (ih h1)
      | pyStr t =>
        by_cases hm : t ∈ specs
        · rw [pass3_cons_pyStr_mem specs a rest t he hha hm] at h
          exact List.mem_cons_of_mem a (ih h)
        · rw [pass3_cons_pyStr_notmem specs a rest t he hha hm] at h
          rcases List.mem_cons.mp h with h1 | h1
          · exact h1 ▸ List.mem_cons_self a rest
          · exact List.mem_cons_of_mem a (ih h1)

theorem pass2_isSome_congr (l : List PObj) (s1 s2 : List (List Char)) :
    (pass2 l s1).isSome = (pass2 l s2).isSome := by
  induction l with
  | nil => rfl
  | cons a rest ih =>
    cases he : endsWithAny a.key specExtsL with
    | false =>
      rw [pass2_cons_noext s1 a rest he, pass2_cons_noext s2 a rest he]
      exact ih
    | true =>
      cases hha : hash_from_key (a.key.map Char.toLower) with
      | pyEmpty =>
        rw [pass2_cons_pyEmpty s1 a rest he hha,
          pass2_cons_pyEmpty s2 a rest he hha]
      | pyNone =>
        rw [pass2_cons_pyNone s1 a rest he hha,
          pass2_cons_pyNone s2 a rest he hha]
        exact ih
      | pyStr t =>
        have e1 : (pass2 (a :: rest) s1).isSome = (pass2 rest s1).isSome := by
          by_cases hm : t ∈ s1
          · rw [pass2_cons_pyStr_mem s1 a rest t he hha hm]
            cases pass2 rest s1 <;> rfl
          · rw [pass2_cons_pyStr_notmem s1 a rest t he hha hm]
        have e2 : (pass2 (a :: rest) s2).isSome = (pass2 rest s2).isSome := by
          by_cases hm : t ∈ s2
          · rw [pass2_cons_pyStr_mem s2 a rest t he hha hm]
            cases pass2 rest s2 <;> rfl
          · rw [pass2_cons_pyStr_notmem s2 a rest t he hha hm]
        rw [e1, e2]
        exact ih

theorem pass2_sub (l : List PObj) (s d : List (List Char))
    (h : pass2 l s = some d) (t : List Char) (ht : t ∈ d) : t ∈ s := by
  induction l generalizing d with
  | nil =>
    rw [pass2] at h
    cases h
    cases ht
  | cons a rest ih =>
    cases he : endsWithAny a.key specExtsL with
    | false =>
      rw [pass2_cons_noext s a rest he] at h
      exact ih d h ht
    | true =>
      cases hha : hash_from_key (a.key.map Char.toLower) with
      | pyEmpty =>
        rw [pass2_cons_pyEmpty s a rest he hha] at h
        cases h
      | pyNone =>
        rw [pass2_cons_pyNone s a rest he hha] at h
        exact ih d h ht
      | pyStr u =>
        by_cases hm : u ∈ s
        · rw [pass2_cons_pyStr_mem s a rest u he hha hm] at h
          cases hd2 : pass2 rest s with
          | none =>
            rw [hd2] at h
            cases h
          | some d2 =>
            rw [hd2] at h
            simp only [Option.map_some', Option.some.injEq] at h
            subst h
            rcases List.mem_cons.mp ht with h1 | h1
            · exact h1 ▸ hm
            · exact ih d2 hd2 h1
        · rw [pass2_cons_pyStr_notmem s a rest u he hha hm] at h
          exact ih d h ht

theorem pass2_complete (l : List PObj) (s d : List (List Char))
    (h : pass2 l s = some d) (p : PObj) (hp : p ∈ l)
    (he : endsWithAny p.key specExtsL = true) (t : List Char)
    (hh : hash_from_key (p.key.map Char.toLower) = HashRes.pyStr t)
    (hts : t ∈ s) : t ∈ d := by
  induction l generalizing d with
  | nil => cases hp
  | cons a rest ih =>
    rcases List.mem_cons.mp hp with h1 | h1
    · subst h1
      rw [pass2_cons_pyStr_mem s p rest t he hh hts] at h
      cases hd2 : pass2 rest s with
      | none =>
        rw [hd2] at h
        cases h
      | some d2 =>
        rw [hd2] at h
        simp only [Option.map_some', Option.some.injEq] at h
        subst h
        exact List.mem_cons_self t d2
    · cases hae : endsWithAny a.key specExtsL with
      | false =>
        rw [pass2_cons_noext s a rest hae] at h
        exact ih d h h1
      | true =>
        cases hha : hash_from_key (a.key.map Char.toLower) with
        | pyEmpty =>
          rw [pass2_cons_pyEmpty s a rest hae hha] at h
          cases h
        | pyNone =>
          rw [pass2_cons_pyNone s a rest hae hha] at h
          exact ih d h h1
        | pyStr u =>
          by_cases hm : u ∈ s
          · rw [pass2_cons_pyStr_mem s a rest u hae hha hm] at h
            cases hd2 : pass2 rest s with
            | none =>
              rw [hd2] at h
              cases h
            | some d2 =>
              rw [hd2] at h
              simp only [Option.map_some', Option.some.injEq] at h
              subst h
              exact List.mem_cons_of_mem u (ih d2 hd2 h1)
          · rw [pass2_cons_pyStr_notmem s a rest u hae hha hm] at h
            exact ih d h h1

/-- Re-running the cascade deletion with a hash set contained in the
set of the first run, on the survivors of the first run, deletes nothing: every survivor
was either examined and spared in the first run, or sits at or after the
crash point, where the second run crashes at the same object before deleting
anything. -/
theorem pass3_no_redelete (s1 s2 : List (List Char)) (l : List PObj)
    (hsub : ∀ t ∈ s2, t ∈ s1) :
    pass3 s2 (pass3 s1 l).kept
      = ⟨(pass3 s1 l).kept, [], (pass3 s1 l).crashed⟩ := by
  induction l with
  | nil => rfl
  | cons a rest ih =>
    cases he : endsWithAny a.key allExtsL with
    | false =>
      rw [pass3_cons_noext s1 a rest he]
      rw [pass3_cons_noext s2 a (pass3 s1 rest).kept he, ih]
    | true =>
      cases hha : hash_from_key a.key with
      | pyEmpty =>
        rw [pass3_cons_pyEmpty s1 a rest he hha]
        rw [pass3_cons_pyEmpty s2 a rest he hha]
      | pyNone =>
        rw [pass3_cons_pyNone s1 a rest he hha]
        rw [pass3_cons_pyNone s2 a (pass3 s1 rest).kept he hha, ih]
      | pyStr t =>
        by_cases hm : t ∈ s1
        · rw [pass3_cons_pyStr_mem s1 a rest t he hha hm]
          exact ih
        · have hm2 : t ∉ s2 := fun hc => hm (hsub t hc)
          rw [pass3_cons_pyStr_notmem s1 a rest t he hha hm]
          rw [pass3_cons_pyStr_notmem s2 a (pass3 s1 rest).kept t he hha hm2,
            ih]

theorem pass2_src (l : List PObj) (s d : List (List Char))
    (h : pass2 l s = some d) (t : List Char) (ht : t ∈ d) :
    ∃ p ∈ l, endsWithAny p.key specExtsL = true
      ∧ hash_from_key (p.key.map Char.toLower) = HashRes.pyStr t := by
  induction l generalizing d with
  | nil =>
    rw [pass2] at h
    cases h
    cases ht
  | cons a rest ih =>
    cases he : endsWithAny a.key specExtsL with
    | false =>
      rw [pass2_cons_noext s a rest he] at h
      obtain ⟨p, hp, hpe, hph⟩ := ih d h ht
      exact ⟨p, List.mem_cons_of_mem a hp, hpe, hph⟩
    | true =>
      cases hha : hash_from_key (a.key.map Char.toLower) with
      | pyEmpty =>
        rw [pass2_cons_pyEmpty s a rest he hha] at h
        cases h
      | pyNone =>
        rw [pass2_cons_pyNone s a rest he hha] at h
        obtain ⟨p, hp, hpe, hph⟩ := ih d h ht
        exact ⟨p, List.mem_cons_of_mem a hp, hpe, hph⟩
      | pyStr u =>
        by_cases hm : u ∈ s
        · rw [pass2_cons_pyStr_mem s a rest u he hha hm] at h
          cases hd2 : pass2 rest s with
          | none =>
            rw [hd2] at h
            cases h
          | some d2 =>
            rw [hd2] at h
            simp only [Option.map_some', Option.some.injEq] at h
            subst h
            rcases List.mem_cons.mp ht with h1 | h1
            · subst h1
              exact ⟨a, List.mem_cons_self a rest, he, hha⟩
            · obtain ⟨p, hp, hpe, hph⟩ := ih d2 hd2 h1
              exact ⟨p, List.mem_cons_of_mem a hp, hpe, hph⟩
        · rw [pass2_cons_pyStr_notmem s a rest u he hha hm] at h
          obtain ⟨p, hp, hpe, hph⟩ := ih d h ht
          exact ⟨p, List.mem_cons_of_mem a hp, hpe, hph⟩

theorem pruneStack_eq_crash (now rd : Int) (sh pub : List PObj)
    (h : pass2 pub (pass1 now rd sh).sharedSpecs = none) :
    pruneStack now rd sh pub
      = ⟨(pass1 now rd sh).kept, (pass1 now rd sh).deletedKeys, true⟩ := by
  have hu : pruneStack now rd sh pub
      = (match pass2 pub (pass1 now rd sh).sharedSpecs with
        | none =>
          (⟨(pass1 now rd sh).kept, (pass1 now rd sh).deletedKeys, true⟩ :
            StackOut)
        | some dup =>
          ⟨(pass3 ((pass1 now rd sh).deleteSpecs ++ dup)
              (pass1 now rd sh).kept).kept,
            (pass1 now rd sh).deletedKeys
              ++ (pass3 ((pass1 now rd sh).deleteSpecs ++ dup)
                    (pass1 now rd sh).kept).deleted,
            (pass3 ((pass1 now rd sh).deleteSpecs ++ dup)
              (pass1 now rd sh).kept).crashed⟩) := rfl
  rw [hu, h]

theorem pruneStack_eq_ok (now rd : Int) (sh pub : List PObj)
    (dup : List (List Char))
    (h : pass2 pub (pass1 now rd sh).sharedSpecs = some dup) :
    pruneStack now rd sh pub
      = ⟨(pass3 ((pass1 now rd sh).deleteSpecs ++ dup) (pass1 now rd sh).kept).kept,
          (pass1 now rd sh).deletedKeys
            ++ (pass3 ((pass1 now rd sh).deleteSpecs ++ dup)
                  (pass1 now rd sh).kept).deleted,
          (pass3 ((pass1 now rd sh).deleteSpecs ++ dup)
            (pass1 now rd sh).kept).crashed⟩ := by
  have hu : pruneStack now rd sh pub
      = (match pass2 pub (pass1 now rd sh).sharedSpecs with
        | none =>
          (⟨(pass1 now rd sh).kept, (pass1 now rd sh).deletedKeys, true⟩ :
            StackOut)
        | some dup =>
          ⟨(pass3 ((pass1 now rd sh).deleteSpecs ++ dup)
              (pass1 now rd sh).kept).kept,
            (pass1 now rd sh).deletedKeys
              ++ (pass3 ((pass1 now rd sh).deleteSpecs ++ dup)
                    (pass1 now rd sh).kept).deleted,
            (pass3 ((pass1 now rd sh).deleteSpecs ++ dup)
              (pass1 now rd sh).kept).crashed⟩) := rfl
  rw [hu, h]

theorem runStacks_cons_crash (now rd : Int) (sh pub : List PObj)
    (rest : List (List PObj × List PObj))
    (h : (pruneStack now rd sh pub).crashed = true) :
    runStacks now rd ((sh, pub) :: rest)
      = ⟨((pruneStack now rd sh pub).shared, pub) :: rest,
          (pruneStack now rd sh pub).deleted, true⟩ := by
  have hu : runStacks now rd ((sh, pub) :: rest)
      = (if (pruneStack now rd sh pub).crashed then
          (⟨((pruneStack now rd sh pub).shared, pub) :: rest,
            (pruneStack now rd sh pub).deleted, true⟩ : StacksOut)
        else
          ⟨((pruneStack now rd sh pub).shared, pub)
              :: (runStacks now rd rest).mirrors,
            (pruneStack now rd sh pub).deleted
              ++ (runStacks now rd rest).deleted,
            (runStacks now rd rest).crashed⟩) := rfl
  rw [hu, if_pos h]

theorem runStacks_cons_ok (now rd : Int) (sh pub : List PObj)
    (rest : List (List PObj × List PObj))
    (h : (pruneStack now rd sh pub).crashed = false) :
    runStacks now rd ((sh, pub) :: rest)
      = ⟨((pruneStack now rd sh pub).shared, pub)
            :: (runStacks now rd rest).mirrors,
          (pruneStack now rd sh pub).deleted
            ++ (runStacks now rd rest).deleted,
          (runStacks now rd rest).crashed⟩ := by
  have hu : runStacks now rd ((sh, pub) :: rest)
      = (if (pruneStack now rd sh pub).crashed then
          (⟨((pruneStack now rd sh pub).shared, pub) :: rest,
            (pruneStack now rd sh pub).deleted, true⟩ : StacksOut)
        else
          ⟨((pruneStack now rd sh pub).shared, pub)
              :: (runStacks now rd rest).mirrors,
            (pruneStack now rd sh pub).deleted
              ++ (runStacks now rd rest).deleted,
            (runStacks now rd rest).crashed⟩) := rfl
  rw [hu, if_neg (by simp [h])]

/-- Per-stack idempotence, crash behaviour included: pruning the result of a
prune run (same clock, untouched publish mirror) deletes nothing, leaves the
shared mirror as it was, and crashes exactly when the first run crashed. -/
theorem pruneStack_idem (now rd : Int) (sh pub : List PObj) :
    pruneStack now rd (pruneStack now rd sh pub).shared pub
      = ⟨(pruneStack now rd sh pub).shared, [],
          (pruneStack now rd sh pub).crashed⟩ := by
  cases hp2 : pass2 pub (pass1 now rd sh).sharedSpecs with
  | none =>
    rw [pruneStack_eq_crash now rd sh pub hp2]
    show pruneStack now rd (pass1 now rd sh).kept pub
      = ⟨(pass1 now rd sh).kept, [], true⟩
    have hna : ∀ o ∈ (pass1 now rd sh).kept, agedOut now rd o = false :=
      fun o ho => pass1_kept_notAged now rd sh o ho
    obtain ⟨hk, hdk, _⟩ := pass1_of_notAged now rd (pass1 now rd sh).kept hna
    have hs : (pass2 pub (pass1 now rd (pass1 now rd sh).kept).sharedSpecs).isSome
        = (pass2 pub (pass1 now rd sh).sharedSpecs).isSome :=
      pass2_isSome_congr pub _ _
    rw [hp2] at hs
    have hp2i : pass2 pub (pass1 now rd (pass1 now rd sh).kept).sharedSpecs
        = none := by
      cases hx : pass2 pub (pass1 now rd (pass1 now rd sh).kept).sharedSpecs with
      | none => rfl
      | some v =>
        rw [hx] at hs
        cases hs
    rw [pruneStack_eq_crash now rd (pass1 now rd sh).kept pub hp2i, hk, hdk]
  | some dup =>
    rw [pruneStack_eq_ok now rd sh pub dup hp2]
    show pruneStack now rd
        (pass3 ((pass1 now rd sh).deleteSpecs ++ dup) (pass1 now rd sh).kept).kept
        pub
      = ⟨(pass3 ((pass1 now rd sh).deleteSpecs ++ dup) (pass1 now rd sh).kept).kept,
          [],
          (pass3 ((pass1 now rd sh).deleteSpecs ++ dup)
            (pass1 now rd sh).kept).crashed⟩
    have hsub : ∀ o ∈ (pass3 ((pass1 now rd sh).deleteSpecs ++ dup)
        (pass1 now rd sh).kept).kept, o ∈ (pass1 now rd sh).kept :=
      fun o ho => pass3_kept_sub _ _ o ho
    have hna : ∀ o ∈ (pass3 ((pass1 now rd sh).deleteSpecs ++ dup)
        (pass1 now rd sh).kept).kept, agedOut now rd o = false :=
      fun o ho => pass1_kept_notAged now rd sh o (hsub o ho)
    obtain ⟨hk, hdk, hds⟩ := pass1_of_notAged now rd _ hna
    have hss : ∀ t ∈ (pass1 now rd (pass3 ((pass1 now rd sh).deleteSpecs ++ dup)
        (pass1 now rd sh).kept).kept).sharedSpecs,
        t ∈ (pass1 now rd sh).sharedSpecs := by
      intro t ht
      obtain ⟨o, ho, hoe, hoh⟩ := pass1_sharedSpecs_src now rd _ t ht
      rw [hk] at ho
      exact pass1_sharedSpecs_complete now rd sh o t (hsub o ho) hoe hoh
    have hsome : (pass2 pub (pass1 now rd
        (pass3 ((pass1 now rd sh).deleteSpecs ++ dup)
          (pass1 now rd sh).kept).kept).sharedSpecs).isSome = true := by
      rw [pass2_isSome_congr pub _ ((pass1 now rd sh).sharedSpecs), hp2]
      rfl
    obtain ⟨dup2, hdup2⟩ := Option.isSome_iff_exists.mp hsome
    have hdsub : ∀ t ∈ ([] : List (List Char)) ++ dup2,
        t ∈ (pass1 now rd sh).deleteSpecs ++ dup := by
      intro t ht
      rw [List.nil_append] at ht
      have hts2 := pass2_sub pub _ dup2 hdup2 t ht
      have hts1 := hss t hts2
      obtain ⟨p, hp, hpe, hph⟩ := pass2_src pub _ dup2 hdup2 t ht
      have htd : t ∈ dup :=
        pass2_complete pub (pass1 now rd sh).sharedSpecs dup hp2 p hp hpe t
          hph hts1
      exact List.mem_append_right _ htd
    have hnr := pass3_no_redelete ((pass1 now rd sh).deleteSpecs ++ dup)
      ([] ++ dup2) (pass1 now rd sh).kept hdsub
    rw [pruneStack_eq_ok now rd _ pub dup2 hdup2, hk, hdk, hds, hnr]
    rfl

/-- List-of-stacks idempotence: a second full prune run over the output of a
first one (same clock, publish mirrors untouched) deletes nothing and leaves
every stack mirror unchanged, with the same crash outcome. -/
theorem runStacks_idem (now rd : Int)
    (sts : List (List PObj × List PObj)) :
    runStacks now rd (runStacks now rd sts).mirrors
      = ⟨(runStacks now rd sts).mirrors, [],
          (runStacks now rd sts).crashed⟩ := by
  induction sts with
  | nil => rfl
  | cons hd rest ih =>
    obtain ⟨sh, pub⟩ := hd
    have h2 := pruneStack_idem now rd sh pub
    cases hcr : (pruneStack now rd sh pub).crashed with
    | true =>
      rw [runStacks_cons_crash now rd sh pub rest hcr]
      show runStacks now rd
          (((pruneStack now rd sh pub).shared, pub) :: rest)
        = ⟨((pruneStack now rd sh pub).shared, pub) :: rest, [], true⟩
      have hcx : (pruneStack now rd (pruneStack now rd sh pub).shared
          pub).crashed = true := by
        rw [h2]
        exact hcr
      rw [runStacks_cons_crash now rd _ pub rest hcx, h2]
    | false =>
      rw [runStacks_cons_ok now rd sh pub rest hcr]
      show runStacks now rd
          (((pruneStack now rd sh pub).shared, pub)
            :: (runStacks now rd rest).mirrors)
        = ⟨((pruneStack now rd sh pub).shared, pub)
            :: (runStacks now rd rest).mirrors,
            [], (runStacks now rd rest).crashed⟩
      have hcx : (pruneStack now rd (pruneStack now rd sh pub).shared
          pub).crashed = false := by
        rw [h2]
        exact hcr
      rw [runStacks_cons_ok now rd _ pub _ hcx, h2, ih]
      rfl

theorem check_skip_job_iff (cur : Job) (pending : List Job) (t : String)
    (hcur : cur.metaType = some t)
    (hall : ∀ j ∈ pending, (j.metaType).isSome = true) :
    check_skip_job cur pending = some true
      ↔ ∃ j ∈ pending, j.metaType = some t := by
  induction pending with
  | nil =>
    constructor
    · intro h
      cases h
    · intro ⟨j, hj, _⟩
      cases hj
  | cons a rest ih =>
    have ha : (a.metaType).isSome = true := hall a (List.mem_cons_self a rest)
    cases hat : a.metaType with
    | none =>
      rw [hat] at ha
      cases ha
    | some u =>
      have hd : cur.metaType.getD "-" = t := by rw [hcur]; rfl
      rw [check_skip_job, hat]
      show (if (u == cur.metaType.getD "-") = true then (some true : Option Bool)
          else check_skip_job cur rest) = some true
        ↔ ∃ j ∈ a :: rest, j.metaType = some t
      by_cases hut : u == cur.metaType.getD "-"
      · rw [if_pos hut]
        constructor
        · intro _
          refine ⟨a, List.mem_cons_self a rest, ?_⟩
          rw [hat, beq_iff_eq.mp hut, hd]
        · intro _
          rfl
      · rw [if_neg hut]
        have ih2 := ih (fun j hj => hall j (List.mem_cons_of_mem a hj))
        rw [ih2]
        constructor
        · intro ⟨j, hj, hjt⟩
          exact ⟨j, List.mem_cons_of_mem a hj, hjt⟩
        · intro ⟨j, hj, hjt⟩
          rcases List.mem_cons.mp hj with h1 | h1
          · subst h1
            rw [hat] at hjt
            cases hjt
            rw [hd] at hut
            simp at hut
          · exact ⟨j, h1, hjt⟩

/-- C4: dedup-skip.  `check_skip_job` returns `True` exactly when some
still-pending job on the origin queue of the running job carries an equal meta
`type` (provided, as everywhere in this repository, that every enqueued
maintenance job sets the `type` key); in that case the maintenance tasks
return early: the prune task touches no mirror and deletes nothing, and the
reindex task runs no update-index command. -/
theorem C4_dedup_skip (cur : Job) (pending : List Job) (t : String)
    (hcur : cur.metaType = some t)
    (hall : ∀ j ∈ pending, (j.metaType).isSome = true) :
    (check_skip_job cur pending = some true
      ↔ ∃ j ∈ pending, j.metaType = some t)
    ∧ (∀ (now rd : Int) (sts : List (List PObj × List PObj)),
        (∃ j ∈ pending, j.metaType = some t) →
          prune_mirror_duplicates cur pending now rd sts = ⟨sts, [], false⟩)
    ∧ (∀ urls : List String,
        (∃ j ∈ pending, j.metaType = some t) →
          update_mirror_index cur pending urls = []) := by
  have hiff := check_skip_job_iff cur pending t hcur hall
  refine ⟨hiff, ?_, ?_⟩
  · intro now rd sts hex
    rw [prune_mirror_duplicates, hiff.mpr hex]
  · intro urls hex
    rw [update_mirror_index, hiff.mpr hex]

theorem C4_dedup_skip_witness :
    (check_skip_job ⟨some "prune"⟩ [⟨some "prune"⟩] = some true
      ↔ ∃ j ∈ [(⟨some "prune"⟩ : Job)], j.metaType = some "prune")
    ∧ prune_mirror_duplicates ⟨some "prune"⟩ [⟨some "prune"⟩] 691200 7
        [([⟨"a.spack".data, 0⟩], [])]
      = ⟨[([⟨"a.spack".data, 0⟩], [])], [], false⟩ := by
  have h := C4_dedup_skip ⟨some "prune"⟩ [⟨some "prune"⟩] "prune" rfl
    (by intro j hj; simp at hj; subst hj; rfl)
  refine ⟨h.1, ?_⟩
  exact h.2.1 691200 7 [([⟨"a.spack".data, 0⟩], [])]
    ⟨⟨some "prune"⟩, by simp⟩

/-- C3: prune is idempotent.  For every state of the shared mirrors and
publish mirrors (one pair per CI stack, at a fixed clock reading, with no
writes to either mirror in between), a second run of
`prune_mirror_duplicates` over the output of a first run — both runs
actually pruning, i.e. not aborted by the dedup guard — deletes no object
and leaves every mirror unchanged. -/
theorem C3_prune_idempotent (now rd : Int)
    (sts : List (List PObj × List PObj)) (cur cur2 : Job)
    (pending pending2 : List Job)
    (h1 : check_skip_job cur pending = some false)
    (h2 : check_skip_job cur2 pending2 = some false) :
    (prune_mirror_duplicates cur2 pending2 now rd
        (prune_mirror_duplicates cur pending now rd sts).mirrors).deleted = []
    ∧ (prune_mirror_duplicates cur2 pending2 now rd
        (prune_mirror_duplicates cur pending now rd sts).mirrors).mirrors
      = (prune_mirror_duplicates cur pending now rd sts).mirrors := by
  have hrun : ∀ (c : Job) (p : List Job) (x : List (List PObj × List PObj)),
      check_skip_job c p = some false →
      prune_mirror_duplicates c p now rd x = runStacks now rd x := by
    intro c p x hc
    rw [prune_mirror_duplicates, hc]
  rw [hrun cur pending sts h1, hrun cur2 pending2 _ h2, runStacks_idem]
  exact ⟨rfl, rfl⟩

theorem C3_prune_idempotent_witness :
    (prune_mirror_duplicates ⟨some "prune"⟩ [] 691200 7
        (prune_mirror_duplicates ⟨some "prune"⟩ [] 691200 7
          [([⟨"a.spack".data, 0⟩], [])]).mirrors).deleted = []
    ∧ (prune_mirror_duplicates ⟨some "prune"⟩ [] 691200 7
        (prune_mirror_duplicates ⟨some "prune"⟩ [] 691200 7
          [([⟨"a.spack".data, 0⟩], [])]).mirrors).mirrors
      = (prune_mirror_duplicates ⟨some "prune"⟩ [] 691200 7
          [([⟨"a.spack".data, 0⟩], [])]).mirrors :=
  C3_prune_idempotent 691200 7 [([⟨"a.spack".data, 0⟩], [])]
    ⟨some "prune"⟩ ⟨some "prune"⟩ [] [] rfl rfl

theorem pass1_aged (now rd : Int) (l : List PObj) (o : PObj)
    (ho : o ∈ l) (ha : agedOut now rd o = true) :
    o.key ∈ (pass1 now rd l).deletedKeys
      ∧ o ∉ (pass1 now rd l).kept
      ∧ (∀ t, hash_from_key o.key = HashRes.pyStr t →
          t ∈ (pass1 now rd l).deleteSpecs) := by
  induction l with
  | nil => cases ho
  | cons a rest ih =>
    rw [pass1]
    by_cases haa : agedOut now rd a = true
    · rw [if_pos haa]
      rcases List.mem_cons.mp ho with h1 | h1
      · subst h1
        refine ⟨List.mem_cons_self _ _, ?_, ?_⟩
        · intro hk
          have := pass1_kept_notAged now rd rest o hk
          rw [ha] at this
          cases this
        · intro t ht
          rw [ht]
          exact List.mem_cons_self t _
      · obtain ⟨ih1, ih2, ih3⟩ := ih h1
        refine ⟨List.mem_cons_of_mem _ ih1, ih2, ?_⟩
        intro t ht
        cases hha : hash_from_key a.key with
        | pyStr u => exact List.mem_cons_of_mem u (ih3 t ht)
        | pyNone => exact ih3 t ht
        | pyEmpty => exact ih3 t ht
    · have hne : o ≠ a := by
        intro he
        rw [he] at ha
        exact haa ha
      rcases List.mem_cons.mp ho with h1 | h1
      · exact absurd h1 hne
      obtain ⟨ih1, ih2, ih3⟩ := ih h1
      rw [if_neg haa]
      by_cases hae : endsWithAny a.key specExtsL = true
      · rw [if_pos hae]
        refine ⟨ih1, ?_, ih3⟩
        intro hk
        rcases List.mem_cons.mp hk with h2 | h2
        · exact hne h2
        · exact ih2 h2
      · rw [if_neg hae]
        refine ⟨ih1, ?_, ih3⟩
        intro hk
        rcases List.mem_cons.mp hk with h2 | h2
        · exact hne h2
        · exact ih2 h2

/-- C5: age-based retirement.  In a prune pass over one stack, every shared
object whose floor age in days reaches the retirement threshold (default 7)
is deleted unconditionally — its key appears among the deletions and it is
gone from the resulting mirror — and, when its key yields a hash, that hash
is recorded in `delete_specs` for the cascade deletion of sibling files.
The second conjunct shows the concrete scenario of the spec: with threshold 7, an
8-day-old object is pruned while a 6-day-old object is retained. -/
theorem C5_age_retirement :
    (∀ (now rd : Int) (sh pub : List PObj) (o : PObj), o ∈ sh →
      agedOut now rd o = true →
        o.key ∈ (pruneStack now rd sh pub).deleted
        ∧ o ∉ (pruneStack now rd sh pub).shared
        ∧ (∀ t, hash_from_key o.key = HashRes.pyStr t →
            t ∈ (pass1 now rd sh).deleteSpecs))
    ∧ pruneStack 691200 7
        [⟨"a.spack".data, 0⟩,
          ⟨"b-abcdefghijklmnopqrstuvwxyz012345.spec.json".data, 172800⟩] []
      = ⟨[⟨"b-abcdefghijklmnopqrstuvwxyz012345.spec.json".data, 172800⟩],
          ["a.spack".data], false⟩ := by
  constructor
  · intro now rd sh pub o ho ha
    obtain ⟨h1, h2, h3⟩ := pass1_aged now rd sh o ho ha
    cases hp2 : pass2 pub (pass1 now rd sh).sharedSpecs with
    | none =>
      rw [pruneStack_eq_crash now rd sh pub hp2]
      exact ⟨h1, h2, h3⟩
    | some dup =>
      rw [pruneStack_eq_ok now rd sh pub dup hp2]
      refine ⟨List.mem_append_left _ h1, ?_, h3⟩
      intro hk
      exact h2 (pass3_kept_sub _ _ o hk)
  · decide

theorem C5_age_retirement_witness :
    ("a.spack".data
        ∈ (pruneStack 691200 7
            [⟨"a.spack".data, 0⟩,
              ⟨"b-abcdefghijklmnopqrstuvwxyz012345.spec.json".data, 172800⟩]
            []).deleted)
    ∧ (⟨"a.spack".data, 0⟩ : PObj)
        ∉ (pruneStack 691200 7
            [⟨"a.spack".data, 0⟩,
              ⟨"b-abcdefghijklmnopqrstuvwxyz012345.spec.json".data, 172800⟩]
            []).shared := by
  have h := (C5_age_retirement.1 691200 7
    [⟨"a.spack".data, 0⟩,
      ⟨"b-abcdefghijklmnopqrstuvwxyz012345.spec.json".data, 172800⟩] []
    ⟨"a.spack".data, 0⟩ (by simp) (by decide))
  exact ⟨h.1, h.2.1⟩

theorem run_pipeline_task_eq_authorized (ev : PipeEvent)
    (htok : ev.hasToken = true)
    (hauth : (ev.author == ev.sender || ev.collaboratorFound) = true) :
    run_pipeline_task ev = run_pipeline_authorized ev := by
  rw [run_pipeline_task, htok]
  simp only [Bool.not_true, Bool.false_eq_true, if_false, hauth, if_true]

/-- C6: a pipeline-trigger request whose sender is neither the PR author nor
found by the collaborator lookup is answered with exactly the
permission-denied comment; the task returns normally (the embedding is a
total function), triggers nothing, queries nothing, and deletes no mirror
object.  `hasToken` reflects the ambient `GITLAB_TOKEN` configuration, which
is checked before anything else. -/
theorem C6_permission_denied (ev : PipeEvent) (htok : ev.hasToken = true)
    (hs : ev.sender ≠ ev.author) (hc : ev.collaboratorFound = false) :
    run_pipeline_task ev
      = ⟨[permDeniedMsg ev.sender], none, false, none, false⟩ := by
  rw [run_pipeline_task, htok]
  have hne : (ev.author == ev.sender || ev.collaboratorFound) = false := by
    rw [hc]
    simp only [Bool.or_false, beq_eq_false_iff_ne, ne_eq]
    exact fun hh => hs hh.symm
  simp only [Bool.not_true, Bool.false_eq_true, if_false, hne]

theorem C6_permission_denied_witness :
    run_pipeline_task
        ⟨"rando123", "alice", "482".data, "feature-x".data, "abcd1234",
          false, some ["abcd1234"], false, true, some "/x"⟩
      = ⟨[permDeniedMsg "rando123"], none, false, none, false⟩ :=
  C6_permission_denied
    ⟨"rando123", "alice", "482".data, "feature-x".data, "abcd1234",
      false, some ["abcd1234"], false, true, some "/x"⟩
    rfl (by decide) rfl

/-- C7: freshness gate.  Under an authorized request with a token, if the
GitLab commit response lacks a parent-id list or its parents do not contain
the PR head SHA, `check_gitlab_has_latest` returns `False` and the task posts
the "cannot run pipeline" comment and does not trigger; if the head SHA is
among the parents, the check returns `True` with no comment and the trigger
request is made. -/
theorem C7_stale_gitlab_refusal (ev : PipeEvent) (htok : ev.hasToken = true)
    (hauth : (ev.author == ev.sender || ev.collaboratorFound) = true) :
    ((ev.gitlabParents = none
        ∨ ∃ ps, ev.gitlabParents = some ps ∧ ev.headSha ∉ ps) →
      (check_gitlab_has_latest ev.gitlabParents ev.headSha).1 = false
      ∧ (run_pipeline_task ev).triggered = false
      ∧ (∃ d, (run_pipeline_task ev).posted
          = [format_generic_details_msg cannot_run_pipeline_comment d]))
    ∧ (∀ ps, ev.gitlabParents = some ps → ev.headSha ∈ ps →
        check_gitlab_has_latest ev.gitlabParents ev.headSha = (true, [])
        ∧ (run_pipeline_task ev).triggered = true) := by
  rw [run_pipeline_task_eq_authorized ev htok hauth]
  constructor
  · intro hstale
    have hchk : (check_gitlab_has_latest ev.gitlabParents ev.headSha).1
        = false := by
      rcases hstale with h1 | ⟨ps, hps, hns⟩
      · rw [h1]
        rfl
      · rw [hps, check_gitlab_has_latest, if_neg hns]
    refine ⟨hchk, ?_, ?_⟩
    · rw [run_pipeline_authorized]
      simp only [hchk, Bool.false_eq_true, if_false]
    · rw [run_pipeline_authorized]
      simp only [hchk, Bool.false_eq_true, if_false]
      rcases hstale with h1 | ⟨ps, hps, hns⟩
      · rw [h1]
        exact ⟨"Unexpected response from gitlab", rfl⟩
      · rw [hps, check_gitlab_has_latest, if_neg hns]
        exact ⟨"pr head is not among the gitlab commit parents", rfl⟩
  · intro ps hps hin
    have hchk : check_gitlab_has_latest ev.gitlabParents ev.headSha
        = (true, []) := by
      rw [hps, check_gitlab_has_latest, if_pos hin]
    refine ⟨hchk, ?_⟩
    rw [run_pipeline_authorized]
    simp only [hchk, if_true]

theorem C7_stale_gitlab_refusal_witness :
    (check_gitlab_has_latest
        (some ["ffff0000"] : Option (List String)) "abcd1234").1 = false
    ∧ (run_pipeline_task
        ⟨"alice", "alice", "482".data, "feature-x".data, "abcd1234",
          false, some ["ffff0000"], false, true, some "/x"⟩).triggered
      = false := by
  have h := C7_stale_gitlab_refusal
    ⟨"alice", "alice", "482".data, "feature-x".data, "abcd1234",
      false, some ["ffff0000"], false, true, some "/x"⟩
    rfl (by decide)
  have h2 := h.1 (Or.inr ⟨["ffff0000"], rfl, by decide⟩)
  exact ⟨h2.1, h2.2.1⟩

/-- C2, counterexample.  On the very scenario of the spec (PR #482, branch
`feature-x`, an authorized fresh request), the ref the worker task queries
and triggers is `quote_plus("pr482_feature-x")` — while the percent-encoding
of `github/pr482_feature-x` is `github%2Fpr482_feature-x`.  The `github/`
prefix appears only in the legacy comment handlers, not in the task. -/
theorem C2_ci_ref_counterexample :
    (run_pipeline_task
        ⟨"alice", "alice", "482".data, "feature-x".data, "abcd1234",
          false, some ["abcd1234"], false, true, some "/x"⟩).triggerRef
      = some ("pr482_feature-x".data)
    ∧ quote_plus ("github/pr482_feature-x".data)
      = "github%2Fpr482_feature-x".data
    ∧ (run_pipeline_task
        ⟨"alice", "alice", "482".data, "feature-x".data, "abcd1234",
          false, some ["abcd1234"], false, true, some "/x"⟩).triggerRef
      ≠ some (quote_plus ("github/pr482_feature-x".data)) := by
  refine ⟨?_, by decide, ?_⟩ <;> decide

/-- C2 (amended): for every authorized pipeline-trigger request with a
token, the CI ref the task queries is the percent-encoding (`quote_plus`) of
`pr{number}_{branch}` — without a `github/` prefix — and when the freshness
check passes the same ref is used to trigger the pipeline. -/
theorem C2_ci_ref_amended (ev : PipeEvent) (htok : ev.hasToken = true)
    (hauth : (ev.author == ev.sender || ev.collaboratorFound) = true) :
    (run_pipeline_task ev).queriedRef
      = some (quote_plus ("pr".data ++ ev.prNumber ++ "_".data ++ ev.prBranch))
    ∧ ((check_gitlab_has_latest ev.gitlabParents ev.headSha).1 = true →
      (run_pipeline_task ev).triggerRef
        = some (quote_plus
            ("pr".data ++ ev.prNumber ++ "_".data ++ ev.prBranch))) := by
  rw [run_pipeline_task_eq_authorized ev htok hauth, run_pipeline_authorized]
  constructor
  · cases hchk : (check_gitlab_has_latest ev.gitlabParents ev.headSha).1 with
    | true => simp only [hchk, if_true]
    | false => simp only [hchk, Bool.false_eq_true, if_false]
  · intro hchk
    simp only [hchk, if_true]

theorem C2_ci_ref_amended_witness :
    (run_pipeline_task
        ⟨"bob", "bob", "7".data, "fix".data, "beef",
          false, some ["beef"], false, true, none⟩).queriedRef
      = some (quote_plus ("pr".data ++ "7".data ++ "_".data ++ "fix".data)) :=
  (C2_ci_ref_amended
    ⟨"bob", "bob", "7".data, "fix".data, "beef",
      false, some ["beef"], false, true, none⟩ rfl (by decide)).1

/-- C8: when the formatter produced no diff — the commit attempt reports
"nothing to commit" — an authorized style-fix run posts, after the
acknowledgement, exactly one final comment, carrying the
"no further changes" text, and nothing is pushed to the contributor
branch (the local `git commit` invocation created no commit). -/
theorem C8_style_no_changes (ev : StyleEvent)
    (hauth : (ev.sender != ev.author && !ev.collaboratorFound) = false)
    (hup : is_up_to_date ev.commitOutput = true) :
    fix_style_task ev
      = ⟨[styleAckMsg, get_style_message ev.styleOutput ++ noFurtherChangesMsg],
          false⟩
    ∧ (fix_style_task ev).posted.length = 2 := by
  have he : fix_style_task ev
      = ⟨[styleAckMsg,
            get_style_message ev.styleOutput ++ noFurtherChangesMsg],
          false⟩ := by
    rw [fix_style_task]
    simp only [hauth, Bool.false_eq_true, if_false, hup, if_true]
  exact ⟨he, by rw [he]; rfl⟩

theorem C8_style_no_changes_witness :
    fix_style_task
        ⟨"alice", "alice", false, "all ok".data,
          "nothing to commit, working tree clean".data, false⟩
      = ⟨[styleAckMsg,
            get_style_message ("all ok".data) ++ noFurtherChangesMsg],
          false⟩ :=
  (C8_style_no_changes
    ⟨"alice", "alice", false, "all ok".data,
      "nothing to commit, working tree clean".data, false⟩
    (by decide) (by decide)).1

theorem getVal_putObj_same (bkt k : List Char) (v : Nat) (st : List SObj) :
    getVal (putObj bkt k v st) bkt k = some v := by
  induction st with
  | nil => simp [putObj, getVal]
  | cons o rest ih =>
    rw [putObj]
    by_cases ho : (o.bucket == bkt && o.key == k) = true
    · rw [if_pos ho]
      exact ih
    · rw [if_neg ho, getVal, if_neg ho]
      exact ih

theorem getVal_putObj_diff (bkt k b k' : List Char) (v : Nat)
    (st : List SObj) (h : ¬(b = bkt ∧ k' = k)) :
    getVal (putObj bkt k v st) b k' = getVal st b k' := by
  induction st with
  | nil =>
    simp only [putObj, getVal]
    rw [if_neg]
    intro hc
    rw [Bool.and_eq_true, beq_iff_eq, beq_iff_eq] at hc
    exact h ⟨hc.1.symm, hc.2.symm⟩
  | cons o rest ih =>
    rw [putObj]
    by_cases ho : (o.bucket == bkt && o.key == k) = true
    · rw [if_pos ho, ih, getVal]
      rw [Bool.and_eq_true, beq_iff_eq, beq_iff_eq] at ho
      rw [if_neg]
      intro hc
      rw [Bool.and_eq_true, beq_iff_eq, beq_iff_eq] at hc
      exact h ⟨hc.1 ▸ ho.1, hc.2 ▸ ho.2⟩
    · rw [if_neg ho, getVal, getVal]
      by_cases hob : (o.bucket == b && o.key == k') = true
      · rw [if_pos hob, if_pos hob]
      · rw [if_neg hob, if_neg hob]
        exact ih

theorem getVal_putObj_isSome (bkt k b k' : List Char) (v : Nat)
    (st : List SObj) (h : (getVal st b k').isSome = true) :
    (getVal (putObj bkt k v st) b k').isSome = true := by
  by_cases he : b = bkt ∧ k' = k
  · rw [he.1, he.2, getVal_putObj_same]
    rfl
  · rw [getVal_putObj_diff bkt k b k' v st he]
    exact h

theorem getVal_copyStep_isSome (prBkt prPfx shBkt shPfx b k : List Char)
    (st : List SObj) (o : SObj) (h : (getVal st b k).isSome = true) :
    (getVal (copyStep prBkt prPfx shBkt shPfx st o) b k).isSome = true := by
  rw [copyStep]
  by_cases he : endsWithAny o.key copyExtsL = true
  · rw [if_pos he]
    cases hv : getVal st prBkt o.key with
    | none => exact h
    | some v => exact getVal_putObj_isSome _ _ b k v st h
  · rw [if_neg he]
    exact h

theorem getVal_copyStep_diff (prBkt prPfx shBkt shPfx b k : List Char)
    (st : List SObj) (o : SObj)
    (h : ¬(b = shBkt ∧ k = replaceFirst prPfx shPfx o.key)) :
    getVal (copyStep prBkt prPfx shBkt shPfx st o) b k = getVal st b k := by
  rw [copyStep]
  by_cases he : endsWithAny o.key copyExtsL = true
  · rw [if_pos he]
    cases hv : getVal st prBkt o.key with
    | none => rfl
    | some v => exact getVal_putObj_diff _ _ b k v st h
  · rw [if_neg he]

theorem copyStep_noext (prBkt prPfx shBkt shPfx : List Char)
    (st : List SObj) (o : SObj)
    (he : endsWithAny o.key copyExtsL = false) :
    copyStep prBkt prPfx shBkt shPfx st o = st := by
  rw [copyStep, if_neg (by rw [he]; exact fun hh => nomatch hh)]

theorem replaceFirst_of_isPrefixOf (old new k : List Char)
    (h : old.isPrefixOf k = true) :
    replaceFirst old new k = new ++ k.drop old.length := by
  cases k with
  | nil =>
    rw [replaceFirst, if_pos h]
    have : old = [] := by
      cases old with
      | nil => rfl
      | cons c t => cases h
    rw [this]
    simp
  | cons c rest =>
    rw [replaceFirst, if_pos h]

theorem replaceFirst_inj (old new k1 k2 : List Char)
    (h1 : old.isPrefixOf k1 = true) (h2 : old.isPrefixOf k2 = true)
    (he : replaceFirst old new k1 = replaceFirst old new k2) : k1 = k2 := by
  rw [replaceFirst_of_isPrefixOf old new k1 h1,
    replaceFirst_of_isPrefixOf old new k2 h2] at he
  have hd : k1.drop old.length = k2.drop old.length :=
    List.append_cancel_left he
  obtain ⟨t1, ht1⟩ := List.isPrefixOf_iff_prefix.mp h1
  obtain ⟨t2, ht2⟩ := List.isPrefixOf_iff_prefix.mp h2
  have e1 : k1.drop old.length = t1 := by rw [← ht1, List.drop_left]
  have e2 : k2.drop old.length = t2 := by rw [← ht2, List.drop_left]
  rw [← ht1, ← ht2]
  rw [e1, e2] at hd
  rw [hd]

theorem mem_store_isSome (store : List SObj) (o : SObj) (ho : o ∈ store) :
    (getVal store o.bucket o.key).isSome = true := by
  induction store with
  | nil => cases ho
  | cons a rest ih =>
    rw [getVal]
    by_cases ha : (a.bucket == o.bucket && a.key == o.key) = true
    · rw [if_pos ha]
      rfl
    · rw [if_neg ha]
      rcases List.mem_cons.mp ho with h1 | h1
      · subst h1
        simp at ha
      · exact ih h1

theorem listObjs_mem (store : List SObj) (bkt pfx : List Char) (o : SObj)
    (ho : o ∈ listObjs store bkt pfx) :
    o.bucket = bkt ∧ pfx.isPrefixOf o.key = true ∧ o ∈ store := by
  rw [listObjs] at ho
  have h1 := List.mem_filter.mp ho
  have h2 := h1.2
  rw [Bool.and_eq_true, beq_iff_eq] at h2
  exact ⟨h2.1, h2.2, h1.1⟩

theorem copyStep_pr_region (prBkt prPfx shBkt shPfx : List Char)
    (st : List SObj) (o : SObj)
    (hfr : endsWithAny o.key copyExtsL = true →
      ¬(shBkt = prBkt
        ∧ prPfx.isPrefixOf (replaceFirst prPfx shPfx o.key) = true))
    (k : List Char) (hk : prPfx.isPrefixOf k = true) :
    getVal (copyStep prBkt prPfx shBkt shPfx st o) prBkt k
      = getVal st prBkt k := by
  cases he : endsWithAny o.key copyExtsL with
  | false => rw [copyStep_noext prBkt prPfx shBkt shPfx st o he]
  | true =>
    apply getVal_copyStep_diff
    intro ⟨hb, hkk⟩
    exact hfr he ⟨hb.symm, hkk ▸ hk⟩

theorem copyFold_isSome (prBkt prPfx shBkt shPfx : List Char)
    (l : List SObj) (st : List SObj) (b k : List Char)
    (h : (getVal st b k).isSome = true) :
    (getVal (l.foldl (copyStep prBkt prPfx shBkt shPfx) st) b k).isSome
      = true := by
  induction l generalizing st with
  | nil => exact h
  | cons o rest ih =>
    exact ih _ (getVal_copyStep_isSome prBkt prPfx shBkt shPfx b k st o h)

theorem copyFold_pr_region (prBkt prPfx shBkt shPfx : List Char)
    (l : List SObj) (st : List SObj)
    (hfr : ∀ o ∈ l, endsWithAny o.key copyExtsL = true →
      ¬(shBkt = prBkt
        ∧ prPfx.isPrefixOf (replaceFirst prPfx shPfx o.key) = true))
    (k : List Char) (hk : prPfx.isPrefixOf k = true) :
    getVal (l.foldl (copyStep prBkt prPfx shBkt shPfx) st) prBkt k
      = getVal st prBkt k := by
  induction l generalizing st with
  | nil => rfl
  | cons o rest ih =>
    rw [List.foldl_cons,
      ih _ (fun o' ho' => hfr o' (List.mem_cons_of_mem o ho')),
      copyStep_pr_region prBkt prPfx shBkt shPfx st o
        (hfr o (List.mem_cons_self o rest)) k hk]

theorem copyFold_changes (prBkt prPfx shBkt shPfx : List Char)
    (l : List SObj) (st : List SObj) (b k : List Char)
    (h : getVal (l.foldl (copyStep prBkt prPfx shBkt shPfx) st) b k
      ≠ getVal st b k) :
    ∃ o ∈ l, endsWithAny o.key copyExtsL = true ∧ b = shBkt
      ∧ k = replaceFirst prPfx shPfx o.key := by
  induction l generalizing st with
  | nil => exact absurd rfl h
  | cons o rest ih =>
    rw [List.foldl_cons] at h
    by_cases hch : getVal (copyStep prBkt prPfx shBkt shPfx st o) b k
        = getVal st b k
    · have h2 : getVal
          (rest.foldl (copyStep prBkt prPfx shBkt shPfx)
            (copyStep prBkt prPfx shBkt shPfx st o)) b k
          ≠ getVal (copyStep prBkt prPfx shBkt shPfx st o) b k := by
        intro he
        exact h (he.trans hch)
      obtain ⟨o', ho', he', hb', hk'⟩ := ih _ h2
      exact ⟨o', List.mem_cons_of_mem o ho', he', hb', hk'⟩
    · by_cases hext : endsWithAny o.key copyExtsL = true
      · by_cases htar : b = shBkt ∧ k = replaceFirst prPfx shPfx o.key
        · exact ⟨o, List.mem_cons_self o rest, hext, htar.1, htar.2⟩
        · exact absurd
            (getVal_copyStep_diff prBkt prPfx shBkt shPfx b k st o htar) hch
      · rw [copyStep_noext prBkt prPfx shBkt shPfx st o
          (Bool.not_eq_true _ ▸ hext)] at hch
        exact absurd rfl hch

theorem copyFold_target (prBkt prPfx shBkt shPfx : List Char)
    (store : List SObj) (l : List SObj) (st : List SObj)
    (hfr : ∀ o ∈ l, endsWithAny o.key copyExtsL = true →
      ¬(shBkt = prBkt
        ∧ prPfx.isPrefixOf (replaceFirst prPfx shPfx o.key) = true))
    (hdom : ∀ o ∈ l, o.bucket = prBkt ∧ prPfx.isPrefixOf o.key = true
      ∧ (getVal store prBkt o.key).isSome = true)
    (hagree : ∀ k, prPfx.isPrefixOf k = true →
      getVal st prBkt k = getVal store prBkt k) :
    (∀ k0, prPfx.isPrefixOf k0 = true →
      getVal st shBkt (replaceFirst prPfx shPfx k0) = getVal store prBkt k0 →
      getVal (l.foldl (copyStep prBkt prPfx shBkt shPfx) st) shBkt
          (replaceFirst prPfx shPfx k0)
        = getVal store prBkt k0)
    ∧ (∀ o ∈ l, endsWithAny o.key copyExtsL = true →
      getVal (l.foldl (copyStep prBkt prPfx shBkt shPfx) st) shBkt
          (replaceFirst prPfx shPfx o.key)
        = getVal store prBkt o.key) := by
  induction l generalizing st with
  | nil =>
    refine ⟨fun k0 _ hs => hs, fun o ho => absurd ho (List.not_mem_nil o)⟩
  | cons o rest ih =>
    have hfrH := hfr o (List.mem_cons_self o rest)
    have hdomH := hdom o (List.mem_cons_self o rest)
    have hfrT := fun o' ho' => hfr o' (List.mem_cons_of_mem o ho')
    have hdomT := fun o' ho' => hdom o' (List.mem_cons_of_mem o ho')
    have hagree2 : ∀ k, prPfx.isPrefixOf k = true →
        getVal (copyStep prBkt prPfx shBkt shPfx st o) prBkt k
          = getVal store prBkt k :=
      fun k hk =>
        (copyStep_pr_region prBkt prPfx shBkt shPfx st o hfrH k hk).trans
          (hagree k hk)
    have hslot : ∀ k0, prPfx.isPrefixOf k0 = true →
        getVal st shBkt (replaceFirst prPfx shPfx k0)
          = getVal store prBkt k0 →
        getVal (copyStep prBkt prPfx shBkt shPfx st o) shBkt
            (replaceFirst prPfx shPfx k0)
          = getVal store prBkt k0 := by
      intro k0 hk0 hs
      cases hext : endsWithAny o.key copyExtsL with
      | false =>
        rw [copyStep_noext prBkt prPfx shBkt shPfx st o hext]
        exact hs
      | true =>
        cases hvv : getVal st prBkt o.key with
        | none =>
          rw [copyStep, if_pos hext, hvv]
          exact hs
        | some v =>
          by_cases heq : replaceFirst prPfx shPfx o.key
              = replaceFirst prPfx shPfx k0
          · have hkk : o.key = k0 :=
              replaceFirst_inj prPfx shPfx o.key k0 hdomH.2.1 hk0 heq
            have hv2 : getVal store prBkt o.key = some v := by
              rw [← hagree o.key hdomH.2.1, hvv]
            rw [copyStep, if_pos hext, hvv, ← heq, getVal_putObj_same,
              ← hkk, hv2]
          · rw [copyStep, if_pos hext, hvv]
            rw [getVal_putObj_diff]
            · exact hs
            · intro hcc
              exact heq hcc.2.symm
    refine ⟨?_, ?_⟩
    · intro k0 hk0 hs
      rw [List.foldl_cons]
      exact (ih _ hfrT hdomT hagree2).1 k0 hk0 (hslot k0 hk0 hs)
    · intro o' ho' hext'
      rcases List.mem_cons.mp ho' with h1 | h1
      · subst h1
        rw [List.foldl_cons]
        have hv : getVal st prBkt o'.key = getVal store prBkt o'.key :=
          hagree o'.key hdomH.2.1
        obtain ⟨v, hvv⟩ := Option.isSome_iff_exists.mp hdomH.2.2
        have hst2 : getVal (copyStep prBkt prPfx shBkt shPfx st o') shBkt
            (replaceFirst prPfx shPfx o'.key)
            = getVal store prBkt o'.key := by
          rw [copyStep, if_pos hext', hv, hvv, getVal_putObj_same]
        exact (ih _ hfrT hdomT hagree2).1 o'.key hdomH.2.1 hst2
      · rw [List.foldl_cons]
        exact (ih _ hfrT hdomT hagree2).2 o' h1 hext'

/-- C9, counterexample.  When the substituted key itself falls back under
the PR mirror prefix (same bucket, PR prefix `p`, shared prefix `pq`), the
copy loop overwrites an object that sits under the PR mirror region: after
the run, key `pq1.spack` — which starts with the PR prefix `p` and held
value 2 — holds value 1.  The frame condition of the claim is violated. -/
theorem C9_copy_counterexample :
    getVal [(⟨"b".data, "p1.spack".data, 1⟩ : SObj),
        ⟨"b".data, "pq1.spack".data, 2⟩] ("b".data) ("pq1.spack".data)
      = some 2
    ∧ ("p".data).isPrefixOf ("pq1.spack".data) = true
    ∧ getVal (copy_pr_mirror ("b".data) ("p".data) ("b".data) ("pq".data)
        [⟨"b".data, "p1.spack".data, 1⟩, ⟨"b".data, "pq1.spack".data, 2⟩])
        ("b".data) ("pq1.spack".data)
      = some 1 := by
  refine ⟨by decide, by decide, by decide⟩

/-- C9 (amended): provided no substituted key falls back under the PR
mirror region in the PR bucket (true of the deployed layout, where the
shared prefix `shared_pr_mirror/...` never extends a `pr{n}_{branch}`
prefix), a copy run (1) deletes nothing anywhere, (2) leaves every object
under the PR mirror region unchanged, (3) creates, for every listed source
object with a build-artifact extension, an equivalent object in the shared
bucket under the prefix-substituted key, and (4) changes no location other
than those substituted targets — objects with other suffixes are not
copied. -/
theorem C9_copy_amended (prBkt prPfx shBkt shPfx : List Char)
    (store : List SObj)
    (hfr : ∀ o ∈ listObjs store prBkt prPfx,
      endsWithAny o.key copyExtsL = true →
      ¬(shBkt = prBkt
        ∧ prPfx.isPrefixOf (replaceFirst prPfx shPfx o.key) = true)) :
    (∀ b k, (getVal store b k).isSome = true →
      (getVal (copy_pr_mirror prBkt prPfx shBkt shPfx store) b k).isSome
        = true)
    ∧ (∀ k, prPfx.isPrefixOf k = true →
      getVal (copy_pr_mirror prBkt prPfx shBkt shPfx store) prBkt k
        = getVal store prBkt k)
    ∧ (∀ o ∈ listObjs store prBkt prPfx,
      endsWithAny o.key copyExtsL = true →
      getVal (copy_pr_mirror prBkt prPfx shBkt shPfx store) shBkt
          (replaceFirst prPfx shPfx o.key)
        = getVal store prBkt o.key
      ∧ (getVal store prBkt o.key).isSome = true)
    ∧ (∀ b k,
      getVal (copy_pr_mirror prBkt prPfx shBkt shPfx store) b k
        ≠ getVal store b k →
      ∃ o ∈ listObjs store prBkt prPfx, endsWithAny o.key copyExtsL = true
        ∧ b = shBkt ∧ k = replaceFirst prPfx shPfx o.key) := by
  have hdom : ∀ o ∈ listObjs store prBkt prPfx,
      o.bucket = prBkt ∧ prPfx.isPrefixOf o.key = true
        ∧ (getVal store prBkt o.key).isSome = true := by
    intro o ho
    obtain ⟨hb, hp, hm⟩ := listObjs_mem store prBkt prPfx o ho
    refine ⟨hb, hp, ?_⟩
    have hmi := mem_store_isSome store o hm
    rw [hb] at hmi
    exact hmi
  refine ⟨?_, ?_, ?_, ?_⟩
  · intro b k h
    exact copyFold_isSome prBkt prPfx shBkt shPfx
      (listObjs store prBkt prPfx) store b k h
  · intro k hk
    exact copyFold_pr_region prBkt prPfx shBkt shPfx
      (listObjs store prBkt prPfx) store hfr k hk
  · intro o ho hext
    refine ⟨?_, (hdom o ho).2.2⟩
    exact (copyFold_target prBkt prPfx shBkt shPfx store
      (listObjs store prBkt prPfx) store hfr hdom
      (fun k _ => rfl)).2 o ho hext
  · intro b k h
    exact copyFold_changes prBkt prPfx shBkt shPfx
      (listObjs store prBkt prPfx) store b k h

theorem C9_copy_amended_witness :
    getVal (copy_pr_mirror ("a".data) ("p".data) ("c".data) ("s".data)
        [⟨"a".data, "p/x.spack".data, 3⟩]) ("c".data)
        (replaceFirst ("p".data) ("s".data) ("p/x.spack".data))
      = getVal [(⟨"a".data, "p/x.spack".data, 3⟩ : SObj)] ("a".data)
          ("p/x.spack".data) :=
  ((C9_copy_amended ("a".data) ("p".data) ("c".data) ("s".data)
      [⟨"a".data, "p/x.spack".data, 3⟩] (by decide)).2.2.1
    ⟨"a".data, "p/x.spack".data, 3⟩ (by decide) (by decide)).1

end Spackbot
